import Mathlib

/-!
Verification of the Ralph task-scheduling core against its specification.

The definitions below are a shallow embedding of the Python source:
  - src/ralph/domain/task/models.py      (Tree, TaskNode, TaskStatus, TaskWithPath)
  - src/ralph/domain/task/traversal.py   (fold/filter/find/update combinators)
  - src/ralph/domain/task/estimation.py  (complexity and token estimation)
  - src/ralph/application/task_service.py (complete_task)
  - src/ralph/domain/worker/models.py    (Worker, WorkerPool)
  - src/ralph/self_heal.py               (bounded healing loop)
Pure functions are translated directly; external effects (subprocess
execution, the AI provider, file writes) are abstracted as oracle
parameters.
-/

namespace Ralph

/-- Status of a task in the tree (src/ralph/domain/task/models.py, TaskStatus). -/
inductive TaskStatus where
  | pending
  | in_progress
  | done
  | blocked
deriving DecidableEq, Repr

/-- A node in the task tree (src/ralph/domain/task/models.py, TaskNode).
Leaf nodes (no children) are executable tasks; non-leaf nodes are groupings. -/
inductive TaskNode where
  | mk
      (name : String)
      (status : TaskStatus)
      (spec : Option String)
      (context : Option String)
      (read_first : List String)
      (files : List String)
      (acceptance : List String)
      (children : List TaskNode)

/-- Field accessor: name. -/
def TaskNode.name : TaskNode → String
  | .mk n _ _ _ _ _ _ _ => n

/-- Field accessor: status. -/
def TaskNode.status : TaskNode → TaskStatus
  | .mk _ s _ _ _ _ _ _ => s

/-- Field accessor: spec. -/
def TaskNode.spec : TaskNode → Option String
  | .mk _ _ sp _ _ _ _ _ => sp

/-- Field accessor: context. -/
def TaskNode.context : TaskNode → Option String
  | .mk _ _ _ c _ _ _ _ => c

/-- Field accessor: read_first. -/
def TaskNode.read_first : TaskNode → List String
  | .mk _ _ _ _ r _ _ _ => r

/-- Field accessor: files. -/
def TaskNode.files : TaskNode → List String
  | .mk _ _ _ _ _ f _ _ => f

/-- Field accessor: acceptance. -/
def TaskNode.acceptance : TaskNode → List String
  | .mk _ _ _ _ _ _ a _ => a

/-- Field accessor: children. -/
def TaskNode.children : TaskNode → List TaskNode
  | .mk _ _ _ _ _ _ _ cs => cs

/-- node.model_copy(update={"children": new}) on a TaskNode. -/
def TaskNode.withChildren : TaskNode → List TaskNode → TaskNode
  | .mk n s sp c r f a _, cs => .mk n s sp c r f a cs

/-- node.model_copy(update={"status": new}) on a TaskNode. -/
def TaskNode.withStatus : TaskNode → TaskStatus → TaskNode
  | .mk n _ sp c r f a cs, s => .mk n s sp c r f a cs

/-- TaskNode.is_leaf (models.py): a node is a leaf iff it has no children. -/
def TaskNode.is_leaf (n : TaskNode) : Bool :=
  n.children.isEmpty

/-- The root of a task tree (src/ralph/domain/task/models.py, Tree). -/
structure Tree where
  name : String
  context : String
  children : List TaskNode

/-- A task node paired with its path (models.py, TaskWithPath). -/
structure TaskWithPath where
  task : TaskNode
  path : List String

/-!
Traversal combinators (src/ralph/domain/task/traversal.py).  Each Python
loop over a node's children is rendered as an explicit mutually recursive
function over the child list, so the visit order is the source's order.
-/

mutual

/-- Inner fold_node of fold_tree (traversal.py): visit the node, then fold
over its children depth-first, threading the accumulator (passed as the
last argument so the recursion is structural on the node). -/
def fold_node (f : α → TaskNode → List String → α) :
    TaskNode → List String → α → α
  | node@(.mk _ _ _ _ _ _ _ cs), path, acc =>
    fold_children f cs (path ++ [node.name])
      (f acc node (path ++ [node.name]))

/-- The accumulator loop of fold_node over a child list. -/
def fold_children (f : α → TaskNode → List String → α) :
    List TaskNode → List String → α → α
  | [], _, acc => acc
  | c :: rest, path, acc => fold_children f rest path (fold_node f c path acc)

end

/-- fold_tree (traversal.py): fold over all nodes depth-first with paths. -/
def fold_tree (tree : Tree) (initial : α)
    (f : α → TaskNode → List String → α) : α :=
  fold_children f tree.children [tree.name] initial

/-- filter_nodes (traversal.py): collect all nodes satisfying the predicate,
in fold (depth-first) order. -/
def filter_nodes (tree : Tree)
    (predicate : TaskNode → List String → Bool) : List TaskWithPath :=
  fold_tree tree []
    (fun acc node path =>
      if predicate node path then acc ++ [⟨node, path⟩] else acc)

mutual

/-- Inner search of find_first (traversal.py): test the node itself, then
its children depth-first, returning the first match. -/
def search_node (predicate : TaskNode → List String → Bool) :
    TaskNode → List String → Option TaskWithPath
  | node@(.mk _ _ _ _ _ _ _ cs), path =>
    if predicate node (path ++ [node.name]) then
      some ⟨node, path ++ [node.name]⟩
    else
      search_children predicate cs (path ++ [node.name])

/-- The short-circuiting loop of search over a child list. -/
def search_children (predicate : TaskNode → List String → Bool)
    (cs : List TaskNode) (path : List String) : Option TaskWithPath :=
  match cs with
  | [] => none
  | c :: rest =>
    match search_node predicate c path with
    | some r => some r
    | none => search_children predicate rest path

end

/-- find_first (traversal.py): first node matching the predicate,
depth-first. -/
def find_first (tree : Tree)
    (predicate : TaskNode → List String → Bool) : Option TaskWithPath :=
  search_children predicate tree.children [tree.name]

mutual

/-- Inner update_node of update_at_path (traversal.py): a node is returned
unchanged when the remaining path is empty or its head differs from the
node's name; it is replaced by update(node) when exactly one segment
remains; otherwise all children are rebuilt against the path's tail. -/
def update_node (upd : TaskNode → TaskNode) :
    TaskNode → List String → TaskNode
  | node@(.mk _ _ _ _ _ _ _ cs), remaining =>
    match remaining with
    | [] => node
    | s :: rest =>
      if node.name = s then
        match rest with
        | [] => upd node
        | _ :: _ => node.withChildren (update_children upd cs rest)
      else node

/-- The list comprehension of update_node over a child list. -/
def update_children (upd : TaskNode → TaskNode) :
    List TaskNode → List String → List TaskNode
  | [], _ => []
  | c :: rest, remaining =>
    update_node upd c remaining :: update_children upd rest remaining

end

/-- update_at_path (traversal.py): rebuild the tree with the node at the
given path updated; the leading root-name segment is stripped when
present. -/
def update_at_path (tree : Tree) (path : List String)
    (upd : TaskNode → TaskNode) : Tree :=
  let search_path :=
    match path with
    | p :: rest => if p = tree.name then rest else path
    | [] => path
  { tree with children := update_children upd tree.children search_path }

/-- is_leaf predicate (traversal.py). -/
def is_leaf (node : TaskNode) (_path : List String) : Bool :=
  node.is_leaf

/-- is_pending_leaf predicate (traversal.py): leaf with PENDING status. -/
def is_pending_leaf (node : TaskNode) (_path : List String) : Bool :=
  node.is_leaf && node.status == TaskStatus.pending

/-- path_matches predicate (traversal.py): the node's path equals the
target path. -/
def path_matches (target_path : List String)
    (_node : TaskNode) (path : List String) : Bool :=
  path = target_path

/-- find_next_pending (traversal.py): first pending leaf, depth-first. -/
def find_next_pending (tree : Tree) : Option TaskWithPath :=
  find_first tree is_pending_leaf

mutual

/-- Inner collect_up_to_n of find_n_pending (traversal.py).  The Python
closure mutates a shared task list and returns a stop flag; here the list
is threaded explicitly and returned with the flag. -/
def collect_node (n : Nat) :
    TaskNode → List String → List TaskWithPath → List TaskWithPath × Bool
  | node@(.mk _ _ _ _ _ _ _ cs), path, tasks =>
    if node.is_leaf then
      if node.status = TaskStatus.pending then
        let tasks := tasks ++ [⟨node, path ++ [node.name]⟩]
        (tasks, decide (tasks.length ≥ n))
      else (tasks, false)
    else collect_children n cs (path ++ [node.name]) tasks

/-- The short-circuiting loop of collect_up_to_n over a child list. -/
def collect_children (n : Nat) :
    List TaskNode → List String → List TaskWithPath →
      List TaskWithPath × Bool
  | [], _, tasks => (tasks, false)
  | c :: rest, path, tasks =>
    match collect_node n c path tasks with
    | (tasks, true) => (tasks, true)
    | (tasks, false) => collect_children n rest path tasks

end

/-- find_n_pending (traversal.py): up to n pending leaves, depth-first,
stopping as soon as n have been collected. -/
def find_n_pending (tree : Tree) (n : Nat) : List TaskWithPath :=
  (collect_children n tree.children [tree.name] []).1

/-- find_by_path (traversal.py): find a node whose accumulated path equals
the given path, via find_first with the path_matches predicate. -/
def find_by_path (tree : Tree) (path : List String) : Option TaskNode :=
  (find_first tree (path_matches path)).map (·.task)

/-- get_all_leaves (traversal.py). -/
def get_all_leaves (tree : Tree) : List TaskWithPath :=
  filter_nodes tree is_leaf

/-- get_all_pending (traversal.py): all pending leaves, in fold order. -/
def get_all_pending (tree : Tree) : List TaskWithPath :=
  filter_nodes tree is_pending_leaf

end Ralph

namespace Ralph

/-!
Result wrapper (src/ralph/domain/shared/result.py): Ok(value) | Err(error).
-/

/-- Explicit success/failure value (result.py). -/
inductive Result (α : Type) (ε : Type) where
  | Ok (value : α)
  | Err (error : ε)

/-- is_ok (result.py). -/
def Result.is_ok : Result α ε → Bool
  | .Ok _ => true
  | .Err _ => false

/-- TaskCompleted event (src/ralph/domain/task/events.py), restricted to its
domain-specific fields; event_id (a fresh uuid) and timestamp (the clock)
are external nondeterminism and are not modelled. -/
structure TaskCompleted where
  project_id : String
  task_path : List String
  task_name : String

/-- The string value of a status (models.py, TaskStatus inherits str). -/
def TaskStatus.value : TaskStatus → String
  | .pending => "pending"
  | .in_progress => "in-progress"
  | .done => "done"
  | .blocked => "blocked"

/-- complete_task (src/ralph/application/task_service.py): verify the task
exists, is pending or in-progress, and is a leaf; then mark it done via
update_at_path and emit a TaskCompleted event. -/
def complete_task (tree : Tree) (path : List String)
    (project_id : String := "") :
    Result (Tree × TaskCompleted) String :=
  match find_by_path tree path with
  | none =>
    .Err ("Task not found at path: " ++ String.intercalate "/" path)
  | some task =>
    if task.status ≠ TaskStatus.in_progress ∧ task.status ≠ TaskStatus.pending
    then
      .Err ("Task '" ++ task.name ++ "' cannot be completed " ++
        "(current status: " ++ task.status.value ++ ")")
    else if ¬ task.is_leaf then
      .Err ("Task '" ++ task.name ++
        "' is a grouping node, not an executable task")
    else
      .Ok
        (update_at_path tree path (fun node => node.withStatus .done),
         ⟨project_id, path, task.name⟩)

/-!
Token estimation (src/ralph/domain/task/estimation.py).  The same
estimate_complexity function also appears verbatim in src/ralph/core.py
(lines 274-311); one embedding covers both.
-/

/-- Char-list prefix test used by strContains. -/
def prefixMatch : List Char → List Char → Bool
  | [], _ => true
  | _ :: _, [] => false
  | a :: as, b :: bs => a = b && prefixMatch as bs

/-- Char-list substring test used by strContains. -/
def containsAux (needle : List Char) : List Char → Bool
  | [] => needle.isEmpty
  | c :: rest => prefixMatch needle (c :: rest) || containsAux needle rest

/-- Python `needle in haystack` on strings, as used for keyword tests. -/
def strContains (haystack needle : String) : Bool :=
  containsAux needle.data haystack.data

/-- Python str.lower(), restricted to ASCII as every keyword is ASCII. -/
def toLowerStr (s : String) : String :=
  ⟨s.data.map Char.toLower⟩

/-- High complexity keyword list (estimation.py). -/
def high_indicators : List String :=
  ["refactor", "rewrite", "migrate", "integration",
   "architecture", "security", "performance", "optimization"]

/-- Medium complexity keyword list (estimation.py). -/
def medium_indicators : List String :=
  ["implement", "create", "build", "add", "feature",
   "endpoint", "component"]

/-- Complexity classification (estimation.py / core.py): high keywords
first, then medium keywords, then file-count thresholds. -/
def estimate_complexity (task : TaskNode) : String :=
  let name_lower := toLowerStr task.name
  if high_indicators.any (fun ind => strContains name_lower ind) then
    "high"
  else if medium_indicators.any (fun ind => strContains name_lower ind) then
    "medium"
  else if task.files.length > 3 then
    "high"
  else if task.files.length > 1 then
    "medium"
  else
    "low"

/-- TARGET_TOKENS (estimation.py). -/
def TARGET_TOKENS : Nat := 60000
/-- BASE_OVERHEAD (estimation.py). -/
def BASE_OVERHEAD : Nat := 15000
/-- TOKENS_PER_FILE (estimation.py). -/
def TOKENS_PER_FILE : Nat := 2500
/-- TOKENS_PER_TOOL_CALL (estimation.py). -/
def TOKENS_PER_TOOL_CALL : Nat := 500

/-- Token usage breakdown (estimation.py, TokenCount).  The float field
utilization (a percentage rounded for display) is not modelled; every
other field is integral. -/
structure TokenCount where
  base_overhead : Nat
  context_tokens : Nat
  task_tokens : Nat
  file_reads : Nat
  tool_calls : Nat
  buffer : Nat
  total : Nat
  target : Nat
  fits : Bool
  complexity : String
deriving DecidableEq, Repr

/-- The tool-call multiplier dictionary of estimate_tokens. -/
def tool_multiplier (complexity : String) : Nat :=
  if complexity = "low" then 8
  else if complexity = "medium" then 15
  else 25

/-- estimate_tokens (estimation.py).  Python computes
int(len(s) * TOKENS_PER_CHAR) with TOKENS_PER_CHAR = 0.25; since 0.25 is
an exact binary fraction this equals len(s) / 4 in integer division.
Likewise int(target * 0.2) is rendered as target / 5 (exact for every
target the program uses). -/
def estimate_tokens (task : TaskNode) (context : String)
    (target : Nat := TARGET_TOKENS) : TokenCount :=
  let context_tokens := context.length / 4
  let task_text :=
    match task.spec with
    | some sp => task.name ++ "\n" ++ sp
    | none => task.name
  let task_tokens := task_text.length / 4
  let file_count := task.read_first.length + task.files.length
  let file_reads := file_count * TOKENS_PER_FILE
  let complexity := estimate_complexity task
  let tool_calls := tool_multiplier complexity * TOKENS_PER_TOOL_CALL
  let buffer := target / 5
  let total := BASE_OVERHEAD + context_tokens + task_tokens + file_reads
    + tool_calls + buffer
  { base_overhead := BASE_OVERHEAD
    context_tokens := context_tokens
    task_tokens := task_tokens
    file_reads := file_reads
    tool_calls := tool_calls
    buffer := buffer
    total := total
    target := target
    fits := total ≤ target
    complexity := complexity }

/-!
Worker pool (src/ralph/domain/worker/models.py) and the rolling-completion
removal performed by the worker done-one command
(src/ralph/interfaces/cli/commands/worker.py, lines 597-605).
-/

/-- A parallel worker assignment (worker/models.py). -/
structure Worker where
  id : Nat
  branch : String
  task : String
  path : String
  status : String
deriving DecidableEq, Repr

/-- Collection of worker assignments (worker/models.py, WorkerPool). -/
structure WorkerPool where
  workers : List Worker
deriving DecidableEq, Repr

/-- WorkerPool.next_id: 1 when empty, otherwise max existing id + 1. -/
def WorkerPool.next_id (pool : WorkerPool) : Nat :=
  match pool.workers with
  | [] => 1
  | w :: ws => (ws.foldl (fun m x => max m x.id) w.id) + 1

/-- WorkerPool.add_worker: append, returning a new pool. -/
def WorkerPool.add_worker (pool : WorkerPool) (worker : Worker) :
    WorkerPool :=
  ⟨pool.workers ++ [worker]⟩

/-- WorkerPool.get_active: all workers whose status is not "done". -/
def WorkerPool.get_active (pool : WorkerPool) : List Worker :=
  pool.workers.filter (fun w => w.status ≠ "done")

/-- WorkerPool.clear_done: drop all done workers. -/
def WorkerPool.clear_done (pool : WorkerPool) : WorkerPool :=
  ⟨pool.get_active⟩

/-- The worker-removal step of the done-one command (worker.py line 598):
the pool is rebuilt without the completed worker's id. -/
def done_one_remove (pool : WorkerPool) (worker_id : Nat) : WorkerPool :=
  ⟨pool.workers.filter (fun w => w.id ≠ worker_id)⟩

/-!
Self-healing loop (src/ralph/self_heal.py).  Command execution, the AI
provider and file writes are external effects; they enter the embedding
as a HealEnv oracle indexed by the attempt number, while the control flow
of run_validation / heal_file / heal_task is translated from the source.
-/

/-- Result of one validation command (self_heal.py, ValidationResult). -/
structure ValidationResult where
  success : Bool
  command : String
  stdout : String
  stderr : String
  return_code : Int
deriving DecidableEq, Repr

/-- Result of a healing attempt (self_heal.py, HealingResult). -/
structure HealingResult where
  success : Bool
  attempts : Nat
  file_fixed : Option String
  validations : List ValidationResult
  error : Option String
deriving DecidableEq, Repr

/-- External world of the healing loop: what running a command returns at
a given attempt, what the AI provider answers, whether a write raises,
and whether the target file exists.  Python's get_fix_from_ai returns
None on provider failure and the raw text otherwise; heal_file treats an
empty string like None (a falsy value). -/
structure HealEnv where
  exec : Nat → String → ValidationResult
  fix : Nat → Option String
  writeErr : Nat → String → Option String
  fileExists : String → Bool

/-- The command loop of run_validation (self_heal.py): run each command in
order, stopping after the first failure; every executed command's result
is recorded. -/
def run_validation_loop (run : String → ValidationResult) :
    List String → List ValidationResult → List ValidationResult
  | [], results => results
  | cmd :: rest, results =>
    let r := run cmd
    if r.success then run_validation_loop run rest (results ++ [r])
    else results ++ [r]

/-- run_validation (self_heal.py): all_passed is the conjunction over the
recorded results. -/
def run_validation (run : String → ValidationResult)
    (commands : List String) : Bool × List ValidationResult :=
  let results := run_validation_loop run commands []
  (results.all (fun r => r.success), results)

/-- The attempt loop of heal_file (self_heal.py), translated with an
explicit count of remaining iterations: Python iterates attempt over
range(1, max_attempts + 1), so fuel = max_attempts + 1 - attempt and the
final iteration (attempt == max_attempts) is the one with fuel = 1. -/
def heal_from (env : HealEnv) (cmds : List String) (max_attempts : Nat) :
    Nat → Nat → HealingResult → HealingResult
  | 0, _, res => res
  | fuel + 1, attempt, res =>
    let res := { res with attempts := attempt }
    let v := run_validation (env.exec attempt) cmds
    let res := { res with validations := v.2 }
    if v.1 then
      { res with success := true }
    else if fuel = 0 then
      let msg := "Max attempts (" ++ toString max_attempts ++ ") reached"
      { res with error := some msg }
    else
      match env.fix attempt with
      | none => { res with error := some "Failed to get fix from AI" }
      | some code =>
        if code = "" then
          { res with error := some "Failed to get fix from AI" }
        else
          match env.writeErr attempt code with
          | some e =>
            let msg := "Failed to write fix: " ++ e
            { res with error := some msg }
          | none => heal_from env cmds max_attempts fuel (attempt + 1) res

/-- heal_file (self_heal.py): reject an empty command list and a missing
file, then run the bounded validate/repair loop. -/
def heal_file (env : HealEnv) (file_path : String)
    (acceptance_commands : List String)
    (max_attempts : Nat := 3) : HealingResult :=
  let result : HealingResult :=
    { success := false, attempts := 0, file_fixed := some file_path,
      validations := [], error := none }
  if acceptance_commands.isEmpty then
    { result with error := some "No acceptance commands provided" }
  else if ¬ env.fileExists file_path then
    { result with error := some ("File not found: " ++ file_path) }
  else
    heal_from env acceptance_commands max_attempts max_attempts 1 result

/-- The task dict consumed by heal_task (self_heal.py): its "files" and
"acceptance" entries. -/
structure TaskDict where
  files : List String
  acceptance : List String

/-- Whether a path string is absolute (POSIX semantics of pathlib). -/
def isAbsolutePath (target : String) : Bool :=
  match target.data with
  | c :: _ => c = '/'
  | [] => false

/-- Path joining performed by heal_task: a relative target file is made
absolute against the project path (POSIX semantics of pathlib). -/
def joinPath (project_path target : String) : String :=
  if isAbsolutePath target then target else project_path ++ "/" ++ target

/-- heal_task (self_heal.py): reject tasks without acceptance commands or
without files, then heal the first file in the task's file list. -/
def heal_task (env : HealEnv) (task : TaskDict) (project_path : String)
    (max_attempts : Nat := 3) : HealingResult :=
  if task.acceptance.isEmpty then
    { success := false, attempts := 0, file_fixed := none,
      validations := [], error := some "No acceptance criteria for this task" }
  else if task.files.isEmpty then
    { success := false, attempts := 0, file_fixed := none,
      validations := [], error := some "No files specified for this task" }
  else
    let target_file := joinPath project_path (task.files.headD "")
    heal_file env target_file task.acceptance max_attempts

/-!
Observation instruments.  These definitions are not part of the source;
they address nodes positionally and list a tree's nodes so that frame
properties ("exactly this node changed, nothing else") can be stated
about the source functions above.
-/

/-- Positional access inside a node: follow a list of child indices. -/
def getN : TaskNode → List Nat → Option TaskNode
  | n, [] => some n
  | n, i :: rest =>
    match n.children.get? i with
    | none => none
    | some c => getN c rest

/-- Positional access in a child list: a position is a non-empty index
list; the empty position addresses nothing (the root is not a node). -/
def listGet (cs : List TaskNode) : List Nat → Option TaskNode
  | [] => none
  | i :: rest =>
    match cs.get? i with
    | none => none
    | some c => getN c rest

/-- Positional access in a tree. -/
def getPos (t : Tree) (pos : List Nat) : Option TaskNode :=
  listGet t.children pos

/-- First child (with its index, counting from the given offset) whose
name equals the segment. -/
def resolveAux : List TaskNode → String → Nat → Option (Nat × TaskNode)
  | [], _, _ => none
  | c :: cs, s, i =>
    if c.name = s then some (i, c) else resolveAux cs s (i + 1)

/-- Resolve a name path in a child list to the position and node it
addresses, matching each segment against child names (first match wins,
as in the source's path resolution). -/
def resolveChildren : List TaskNode → List String → Option (List Nat × TaskNode)
  | _, [] => none
  | cs, s :: rest =>
    match resolveAux cs s 0 with
    | none => none
    | some (i, c) =>
      match rest with
      | [] => some ([i], c)
      | _ :: _ =>
        (resolveChildren c.children rest).map (fun pr => (i :: pr.1, pr.2))

/-- Resolve a full path in a tree: the first segment must equal the
tree's name, the rest is resolved against the children. -/
def resolvePath (t : Tree) (path : List String) :
    Option (List Nat × TaskNode) :=
  match path with
  | [] => none
  | s :: rest => if s = t.name then resolveChildren t.children rest else none

mutual

/-- Sibling names are pairwise distinct at every level below this list. -/
def listUniq : List TaskNode → Bool
  | [] => true
  | c :: cs =>
    cs.all (fun d => d.name ≠ c.name) && nodeUniq c && listUniq cs

/-- Sibling names are pairwise distinct at every level below this node. -/
def nodeUniq : TaskNode → Bool
  | .mk _ _ _ _ _ _ _ cs => listUniq cs

end

/-- Sibling names are pairwise distinct everywhere in the tree. -/
def treeUniq (t : Tree) : Bool :=
  listUniq t.children

/-- All fields of a TaskNode except its children: what a node looks like
at its own position, ignoring the subtree below it. -/
structure NodeData where
  name : String
  status : TaskStatus
  spec : Option String
  context : Option String
  read_first : List String
  files : List String
  acceptance : List String
deriving DecidableEq, Repr

/-- The non-recursive fields of a node. -/
def TaskNode.data : TaskNode → NodeData
  | .mk n s sp c r f a _ => ⟨n, s, sp, c, r, f, a⟩

/-- NodeData with the status replaced by done. -/
def dataDone (d : NodeData) : NodeData :=
  { d with status := TaskStatus.done }

/-- The depth-first listing of every node's path and non-recursive
fields, built on the source's fold_tree. -/
def allNodes (t : Tree) : List (List String × NodeData) :=
  fold_tree t [] (fun acc node path => acc ++ [(path, node.data)])

mutual

/-- Direct depth-first collector over a node: the entries contributed by
the node itself and its subtree. -/
def collectN (g : TaskNode → List String → List β) :
    TaskNode → List String → List β
  | node@(.mk _ _ _ _ _ _ _ cs), path =>
    g node (path ++ [node.name]) ++ collectC g cs (path ++ [node.name])

/-- Direct depth-first collector over a child list. -/
def collectC (g : TaskNode → List String → List β) :
    List TaskNode → List String → List β
  | [], _ => []
  | c :: rest, path => collectN g c path ++ collectC g rest path

end

/-- Collector entry for the pending-leaf filter. -/
def pendEntry (n : TaskNode) (p : List String) : List TaskWithPath :=
  if is_pending_leaf n p then [⟨n, p⟩] else []

/-- Collector entry for the node listing. -/
def dataEntry (n : TaskNode) (p : List String) :
    List (List String × NodeData) :=
  [(p, n.data)]

/-!
Concrete instances used by witnesses and counterexamples.  The tree is
the scheduling example of the specification: Root with a grouping A
containing pending leaf A1, and a pending leaf B.
-/

/-- Pending leaf A1. -/
def egA1 : TaskNode := .mk "A1" .pending none none [] [] [] []
/-- Grouping node A containing A1. -/
def egA : TaskNode := .mk "A" .pending none none [] [] [] [egA1]
/-- Pending leaf B. -/
def egB : TaskNode := .mk "B" .pending none none [] [] [] []
/-- Done leaf D, for exercising rejection branches. -/
def egD : TaskNode := .mk "D" .done none none [] [] [] []
/-- The example tree. -/
def egTree : Tree := ⟨"Root", "", [egA, egB, egD]⟩

/-- A healing environment in which every command fails with exit code 1
and the AI provider always answers with a non-empty replacement file. -/
def envFail : HealEnv :=
  { exec := fun _ c => ⟨false, c, "", "", 1⟩
    fix := fun _ => some "fixed content"
    writeErr := fun _ _ => none
    fileExists := fun _ => true }

/-- A healing environment in which every command succeeds. -/
def envPass : HealEnv :=
  { exec := fun _ c => ⟨true, c, "", "", 0⟩
    fix := fun _ => none
    writeErr := fun _ _ => none
    fileExists := fun _ => true }

/-!
Helper lemmas.
-/

/-- Rebuilding a node from its own fields is the identity. -/
theorem TaskNode.eta : ∀ n : TaskNode,
    TaskNode.mk n.name n.status n.spec n.context n.read_first n.files
      n.acceptance n.children = n
  | .mk _ _ _ _ _ _ _ _ => rfl

/-- withChildren keeps every field but the children. -/
theorem TaskNode.withChildren_children : ∀ (n : TaskNode) (cs : List TaskNode),
    (n.withChildren cs).children = cs
  | .mk _ _ _ _ _ _ _ _, _ => rfl

/-- withChildren keeps the name. -/
theorem TaskNode.withChildren_name : ∀ (n : TaskNode) (cs : List TaskNode),
    (n.withChildren cs).name = n.name
  | .mk _ _ _ _ _ _ _ _, _ => rfl

/-- withChildren keeps the non-recursive data. -/
theorem TaskNode.withChildren_data : ∀ (n : TaskNode) (cs : List TaskNode),
    (n.withChildren cs).data = n.data
  | .mk _ _ _ _ _ _ _ _, _ => rfl

/-- Replacing the children by themselves is the identity. -/
theorem TaskNode.withChildren_self : ∀ n : TaskNode,
    n.withChildren n.children = n
  | .mk _ _ _ _ _ _ _ _ => rfl

/-- withStatus keeps the children. -/
theorem TaskNode.withStatus_children : ∀ (n : TaskNode) (s : TaskStatus),
    (n.withStatus s).children = n.children
  | .mk _ _ _ _ _ _ _ _, _ => rfl

/-- withStatus keeps the name. -/
theorem TaskNode.withStatus_name : ∀ (n : TaskNode) (s : TaskStatus),
    (n.withStatus s).name = n.name
  | .mk _ _ _ _ _ _ _ _, _ => rfl

/-- Setting the status to done acts on the data as dataDone. -/
theorem TaskNode.withStatus_done_data : ∀ n : TaskNode,
    (n.withStatus .done).data = dataDone n.data
  | .mk _ _ _ _ _ _ _ _ => rfl

mutual

/-- Simultaneous induction over a node and a child list: the workhorse
for proofs about the mutually recursive traversals. -/
theorem nodeInd {P : TaskNode → Prop} {Q : List TaskNode → Prop}
    (hmk : ∀ nm st sp cx rf fl ac cs, Q cs → P (.mk nm st sp cx rf fl ac cs))
    (hnil : Q []) (hcons : ∀ c cs, P c → Q cs → Q (c :: cs)) :
    ∀ n : TaskNode, P n
  | .mk nm st sp cx rf fl ac cs =>
    hmk nm st sp cx rf fl ac cs (listInd hmk hnil hcons cs)

/-- List half of the simultaneous induction. -/
theorem listInd {P : TaskNode → Prop} {Q : List TaskNode → Prop}
    (hmk : ∀ nm st sp cx rf fl ac cs, Q cs → P (.mk nm st sp cx rf fl ac cs))
    (hnil : Q []) (hcons : ∀ c cs, P c → Q cs → Q (c :: cs)) :
    ∀ cs : List TaskNode, Q cs
  | [] => hnil
  | c :: cs =>
    hcons c cs (nodeInd hmk hnil hcons c) (listInd hmk hnil hcons cs)

end

/-- Claim C7: worker ids are never reused within a pool's lifetime;
next_id is unaffected by a rolling-completion removal.  The code violates
this: next_id is recomputed from the remaining workers, so removing the
worker holding the maximal id (here the only worker, id 1) makes next_id
fall back to 1, and id 1 would be handed out a second time. -/
theorem C7_next_id_reused_after_removal :
    (WorkerPool.mk [⟨1, "b", "task", "Root.task", "assigned"⟩]).next_id = 2
    ∧ (done_one_remove
        (WorkerPool.mk [⟨1, "b", "task", "Root.task", "assigned"⟩])
        1).next_id = 1
    ∧ (1 : Nat) ≠ 2 := by
  refine ⟨rfl, rfl, by decide⟩

/-- Claim C10: heal_file with an empty acceptance-command list fails with
attempts = 0 and the error "No acceptance commands provided"; heal_task
fails the same way (attempts = 0, a descriptive error) for a task with no
acceptance commands or no files. -/
theorem C10_empty_inputs_rejected (env : HealEnv) (file : String)
    (m : Nat) (p : String) (t1 t2 : TaskDict) :
    heal_file env file [] m =
      ⟨false, 0, some file, [], some "No acceptance commands provided"⟩
    ∧ (t1.acceptance = [] →
        heal_task env t1 p m =
          ⟨false, 0, none, [], some "No acceptance criteria for this task"⟩)
    ∧ (t2.acceptance ≠ [] → t2.files = [] →
        heal_task env t2 p m =
          ⟨false, 0, none, [], some "No files specified for this task"⟩) := by
  refine ⟨rfl, fun h => by simp [heal_task, h], fun h1 h2 => ?_⟩
  obtain ⟨a, as, ha⟩ := List.exists_cons_of_ne_nil h1
  simp [heal_task, ha, h2]

/-- Witness for C10 at concrete inputs. -/
theorem C10_empty_inputs_rejected_witness :
    heal_file envPass "f.py" [] 3 =
      ⟨false, 0, some "f.py", [], some "No acceptance commands provided"⟩
    ∧ heal_task envPass ⟨[], []⟩ "proj" 3 =
      ⟨false, 0, none, [], some "No acceptance criteria for this task"⟩
    ∧ heal_task envPass ⟨[], ["pytest"]⟩ "proj" 3 =
      ⟨false, 0, none, [], some "No files specified for this task"⟩ := by
  obtain ⟨h1, h2, h3⟩ :=
    C10_empty_inputs_rejected envPass "f.py" 3 "proj" ⟨[], []⟩ ⟨[], ["pytest"]⟩
  exact ⟨h1, h2 rfl, h3 (by decide) rfl⟩

/-- Counterexample to claim C8: on a task with two files, heal_task does
not flag the multi-file condition; it silently targets the first file
and can report success with no error. -/
theorem C8_counterexample :
    heal_task envPass ⟨["a.py", "b.py"], ["pytest"]⟩ "/p" 3 =
      ⟨true, 1, some "/p/a.py", [⟨true, "pytest", "", "", 0⟩], none⟩ := by
  rfl

/-- Claim C8 as amended: for a task with more than one file, heal_task
targets exactly the first entry of the file list (made absolute against
the project path) and behaves as heal_file on it; the multi-file
condition is not flagged. -/
theorem C8_first_file_silently_targeted (env : HealEnv) (p : String)
    (m : Nat) (f g : String) (rest : List String) (acc : List String)
    (hacc : acc ≠ []) :
    heal_task env ⟨f :: g :: rest, acc⟩ p m =
      heal_file env (joinPath p f) acc m := by
  obtain ⟨a, as, ha⟩ := List.exists_cons_of_ne_nil hacc
  simp [heal_task, ha]

/-- Witness for the amended C8 at concrete inputs. -/
theorem C8_first_file_silently_targeted_witness :
    heal_task envFail ⟨["a.py", "b.py"], ["make test"]⟩ "/p" 2 =
      heal_file envFail (joinPath "/p" "a.py") ["make test"] 2 :=
  C8_first_file_silently_targeted envFail "/p" 2 "a.py" "b.py" []
    ["make test"] (by decide)

/-- Counterexample to claim C6: a task whose name contains the medium
keyword "implement" and which lists more than 3 files is classified
"medium" by the code, not "high" as the claim states, because the
medium-keyword test precedes the file-count tests. -/
theorem C6_counterexample :
    estimate_complexity
      (.mk "implement auth" .pending none none []
        ["a.py", "b.py", "c.py", "d.py"] [] []) = "medium"
    ∧ ("medium" : String) ≠ "high" := by
  exact ⟨rfl, by decide⟩

/-- Claim C6 as amended: estimate_complexity checks, in order, high
keywords, then medium keywords, then files > 3, then files > 1, with
fallback "low"; in particular a task with a medium keyword in its name
and more than 3 files (and no high keyword) is classified "medium". -/
theorem C6_complexity_order (t : TaskNode) :
    (estimate_complexity t =
      (if high_indicators.any
          (fun i => strContains (toLowerStr t.name) i) then
        "high"
      else if medium_indicators.any
          (fun i => strContains (toLowerStr t.name) i)
      then "medium"
      else if t.files.length > 3 then "high"
      else if t.files.length > 1 then "medium"
      else "low"))
    ∧ (high_indicators.any
         (fun i => strContains (toLowerStr t.name) i) = false →
       medium_indicators.any
         (fun i => strContains (toLowerStr t.name) i) = true →
       t.files.length > 3 →
       estimate_complexity t = "medium") := by
  constructor
  · rfl
  · intro hhi hmd _
    simp [estimate_complexity, hhi, hmd]

/-- Adding a file can only raise the complexity class, hence the
tool-call multiplier. -/
theorem tool_multiplier_files_mono (nm : String) (st : TaskStatus)
    (sp cx : Option String) (rf fs ac : List String) (cs : List TaskNode)
    (newf : String) :
    tool_multiplier (estimate_complexity (.mk nm st sp cx rf fs ac cs))
      ≤ tool_multiplier
          (estimate_complexity (.mk nm st sp cx rf (fs ++ [newf]) ac cs)) := by
  simp only [estimate_complexity, TaskNode.name, TaskNode.files,
    List.length_append, List.length_cons, List.length_nil]
  split_ifs <;> simp [tool_multiplier] <;> omega

/-- Claim C9: holding everything else fixed, appending one entry to the
files list never decreases the file_reads component or the total of
estimate_tokens. -/
theorem C9_estimator_monotone (nm : String) (st : TaskStatus)
    (sp cx : Option String) (rf fs ac : List String) (cs : List TaskNode)
    (newf : String) (context : String) (target : Nat) :
    (estimate_tokens (.mk nm st sp cx rf fs ac cs) context target).file_reads
      ≤ (estimate_tokens (.mk nm st sp cx rf (fs ++ [newf]) ac cs)
          context target).file_reads
    ∧ (estimate_tokens (.mk nm st sp cx rf fs ac cs) context target).total
      ≤ (estimate_tokens (.mk nm st sp cx rf (fs ++ [newf]) ac cs)
          context target).total := by
  have hmul := tool_multiplier_files_mono nm st sp cx rf fs ac cs newf
  simp only [estimate_tokens, TaskNode.name, TaskNode.spec,
    TaskNode.read_first, TaskNode.files, List.length_append,
    List.length_cons, List.length_nil, TOKENS_PER_FILE,
    TOKENS_PER_TOOL_CALL, BASE_OVERHEAD]
  constructor <;> omega

/-- Witness for the amended C6 at a concrete input. -/
theorem C6_complexity_order_witness :
    estimate_complexity
      (.mk "implement login" .pending none none []
        ["a.py", "b.py", "c.py", "d.py"] [] []) = "medium" := by
  have h :=
    C6_complexity_order
      (.mk "implement login" .pending none none []
        ["a.py", "b.py", "c.py", "d.py"] [] [])
  exact h.2 (by decide) (by decide) (by decide)

/-- The attempt counter of the healing loop never exceeds max_attempts:
the loop enters with attempt + fuel = max_attempts + 1 and stops when
the fuel runs out. -/
theorem heal_from_attempts_le (env : HealEnv) (cmds : List String)
    (m : Nat) :
    ∀ fuel attempt res, attempt + fuel = m + 1 → res.attempts ≤ m →
      (heal_from env cmds m fuel attempt res).attempts ≤ m := by
  intro fuel
  induction fuel with
  | zero =>
    intro attempt res _ hres
    simpa [heal_from] using hres
  | succ fuel ih =>
    intro attempt res hsum _
    have hat : attempt ≤ m := by omega
    rw [heal_from]
    split
    · simpa using hat
    · split
      · simpa using hat
      · split
        · simpa using hat
        · split
          · simpa using hat
          · split
            · simpa using hat
            · exact ih (attempt + 1) _ (by omega) (by simpa using hat)

/-- heal_file runs at most max_attempts validation rounds. -/
theorem heal_file_attempts_le (env : HealEnv) (file : String)
    (cmds : List String) (m : Nat) :
    (heal_file env file cmds m).attempts ≤ m := by
  rw [heal_file]
  split
  · simp
  · split
    · simp
    · exact heal_from_attempts_le env cmds m m 1
        ⟨false, 0, some file, [], none⟩ (by omega) (by simp)

/-- Counterexample to claim C5: with one always-failing acceptance
command and max_attempts = 3, the terminal error message produced by the
code is "Max attempts (3) reached", not "max attempts reached". -/
theorem C5_counterexample :
    heal_file envFail "f.py" ["exit 1"] 3 =
      ⟨false, 3, some "f.py", [⟨false, "exit 1", "", "", 1⟩],
       some "Max attempts (3) reached"⟩
    ∧ (some "Max attempts (3) reached" : Option String) ≠
        some "max attempts reached" := by
  exact ⟨rfl, by decide⟩

/-- Claim C5 as amended: for a task with one acceptance command that
always fails, max_attempts = 3, an AI provider that always returns a
(non-empty) file and writes that never fail, heal_file returns
success = false, attempts = 3 and error = "Max attempts (3) reached";
moreover the loop never runs more than max_attempts rounds. -/
theorem C5_max_attempts_exhausted (env : HealEnv) (file cmd : String)
    (fstr : Nat → String)
    (hexec : ∀ a, (env.exec a cmd).success = false)
    (hfix : ∀ a, env.fix a = some (fstr a))
    (hne : ∀ a, fstr a ≠ "")
    (hw : ∀ a c, env.writeErr a c = none)
    (hex : env.fileExists file = true) :
    heal_file env file [cmd] 3 =
      ⟨false, 3, some file, [env.exec 3 cmd],
       some "Max attempts (3) reached"⟩
    ∧ ∀ (env2 : HealEnv) (f2 : String) (cmds : List String) (m : Nat),
        (heal_file env2 f2 cmds m).attempts ≤ m := by
  have hrv : ∀ a, run_validation (env.exec a) [cmd] =
      (false, [env.exec a cmd]) := by
    intro a
    simp [run_validation, run_validation_loop, hexec a]
  refine ⟨?_, fun env2 f2 cmds m => heal_file_attempts_le env2 f2 cmds m⟩
  simp [heal_file, hex, heal_from, hrv, hfix, hne, hw]
  decide

/-- Witness for the amended C5 at a concrete environment. -/
theorem C5_max_attempts_exhausted_witness :
    heal_file envFail "g.py" ["make check"] 3 =
      ⟨false, 3, some "g.py", [⟨false, "make check", "", "", 1⟩],
       some "Max attempts (3) reached"⟩ :=
  (C5_max_attempts_exhausted envFail "g.py" "make check"
    (fun _ => "fixed content") (fun _ => rfl) (fun _ => rfl)
    (fun _ => by show ("fixed content" : String) ≠ ""; decide)
    (fun _ _ => rfl) rfl).1

/-- A fold whose step appends g's entries computes the direct
depth-first collection. -/
theorem fold_children_collect {β : Type} (g : TaskNode → List String → List β)
    (f : List β → TaskNode → List String → List β)
    (hf : ∀ acc nd p, f acc nd p = acc ++ g nd p) :
    ∀ cs : List TaskNode, ∀ path acc,
      fold_children f cs path acc = acc ++ collectC g cs path := by
  apply listInd
    (P := fun nd => ∀ path acc,
      fold_node f nd path acc = acc ++ collectN g nd path)
    (Q := fun cs => ∀ path acc,
      fold_children f cs path acc = acc ++ collectC g cs path)
  · intro nm st sp cx rf fl ac cs ih path acc
    simp only [fold_node, collectN, ih, hf, List.append_assoc]
  · intro path acc
    simp [fold_children, collectC]
  · intro c cs ihc ihcs path acc
    simp only [fold_children, collectC, ihcs, ihc, List.append_assoc]

/-- filter_nodes is the direct depth-first collection of predicate
matches. -/
theorem filter_nodes_eq_collect (tree : Tree)
    (pred : TaskNode → List String → Bool) :
    filter_nodes tree pred =
      collectC (fun nd p => if pred nd p then [⟨nd, p⟩] else [])
        tree.children [tree.name] := by
  have hf : ∀ (acc : List TaskWithPath) nd p,
      (if pred nd p then acc ++ [⟨nd, p⟩] else acc) =
        acc ++ (if pred nd p then [⟨nd, p⟩] else []) := by
    intro acc nd p
    split <;> simp
  unfold filter_nodes fold_tree
  rw [fold_children_collect (fun nd p => if pred nd p then [⟨nd, p⟩] else [])
    _ hf]
  simp

/-- get_all_pending is the direct depth-first list of pending leaves. -/
theorem get_all_pending_eq_collect (tree : Tree) :
    get_all_pending tree =
      collectC pendEntry tree.children [tree.name] := by
  rw [get_all_pending, filter_nodes_eq_collect]
  rfl

/-- With budget 1, the collecting traversal of find_n_pending returns
exactly what the searching traversal of find_next_pending finds. -/
theorem collect_one_eq_search :
    ∀ cs : List TaskNode, ∀ path,
      collect_children 1 cs path [] =
        (match search_children is_pending_leaf cs path with
         | some r => ([r], true)
         | none => ([], false)) := by
  apply listInd
    (P := fun nd => ∀ path,
      collect_node 1 nd path [] =
        (match search_node is_pending_leaf nd path with
         | some r => ([r], true)
         | none => ([], false)))
    (Q := fun cs => ∀ path,
      collect_children 1 cs path [] =
        (match search_children is_pending_leaf cs path with
         | some r => ([r], true)
         | none => ([], false)))
  · intro nm st sp cx rf fl ac cs ih path
    cases cs with
    | nil =>
      by_cases hp : st = TaskStatus.pending
      · subst hp
        simp [collect_node, search_node, is_pending_leaf, TaskNode.is_leaf,
          TaskNode.children, TaskNode.status, TaskNode.name]
      · simp [collect_node, search_node, search_children, is_pending_leaf,
          TaskNode.is_leaf, TaskNode.children, TaskNode.status, hp]
    | cons c cs =>
      simp only [collect_node, search_node, is_pending_leaf,
        TaskNode.is_leaf, TaskNode.children, List.isEmpty_cons,
        Bool.false_and, Bool.false_eq_true, if_false, ite_false]
      exact ih _
  · intro path
    simp [collect_children, search_children]
  · intro c cs ihc ihcs path
    simp only [collect_children, search_children, ihc]
    cases hs : search_node is_pending_leaf c path with
    | some r => simp
    | none => simpa using ihcs path

/-- Claim C3: find_next_pending returns none exactly when
find_n_pending(T, 1) is empty, and otherwise its result is the single
element of find_n_pending(T, 1): single-task and batch dispatch agree. -/
theorem C3_single_and_batch_agree (T : Tree) :
    (find_next_pending T = none ↔ find_n_pending T 1 = [])
    ∧ ∀ t, find_next_pending T = some t → find_n_pending T 1 = [t] := by
  have h := collect_one_eq_search T.children [T.name]
  rw [find_n_pending, find_next_pending, find_first] at *
  cases hs : search_children is_pending_leaf T.children [T.name] with
  | none =>
    rw [hs] at h
    simp [h]
  | some r =>
    rw [hs] at h
    simp only [h]
    constructor
    · simp
    · intro t ht
      simp at ht
      simp [ht]

/-- Witness for C3 at the example tree. -/
theorem C3_single_and_batch_agree_witness :
    find_n_pending egTree 1 = [⟨egA1, ["Root", "A", "A1"]⟩] :=
  (C3_single_and_batch_agree egTree).2 ⟨egA1, ["Root", "A", "A1"]⟩ rfl

/-- When the budget covers every pending leaf below a child list, the
collecting traversal gathers all of them, and reports stop exactly when
a nonempty contribution meets the budget. -/
theorem collect_bounded (N : Nat) :
    ∀ cs : List TaskNode, ∀ path tasks,
      tasks.length + (collectC pendEntry cs path).length ≤ N →
      collect_children N cs path tasks =
        (tasks ++ collectC pendEntry cs path,
         decide (0 < (collectC pendEntry cs path).length ∧
           N ≤ tasks.length + (collectC pendEntry cs path).length)) := by
  apply listInd
    (P := fun nd => ∀ path tasks,
      tasks.length + (collectN pendEntry nd path).length ≤ N →
      collect_node N nd path tasks =
        (tasks ++ collectN pendEntry nd path,
         decide (0 < (collectN pendEntry nd path).length ∧
           N ≤ tasks.length + (collectN pendEntry nd path).length)))
    (Q := fun cs => ∀ path tasks,
      tasks.length + (collectC pendEntry cs path).length ≤ N →
      collect_children N cs path tasks =
        (tasks ++ collectC pendEntry cs path,
         decide (0 < (collectC pendEntry cs path).length ∧
           N ≤ tasks.length + (collectC pendEntry cs path).length)))
  · intro nm st sp cx rf fl ac cs ih path tasks hle
    cases cs with
    | nil =>
      by_cases hp : st = TaskStatus.pending
      · subst hp
        simp only [collectN, collectC, pendEntry, is_pending_leaf,
          TaskNode.is_leaf, TaskNode.children, TaskNode.status,
          List.isEmpty_nil, Bool.true_and, beq_self_eq_true, if_true,
          List.append_nil, collect_node, List.length_append,
          List.length_singleton] at *
        refine Prod.ext rfl ?_
        simp only [ge_iff_le]
        apply decide_eq_decide.mpr
        omega
      · simp [collectN, collectC, pendEntry, is_pending_leaf,
          TaskNode.is_leaf, TaskNode.children, TaskNode.status, hp,
          collect_node]
    | cons c cs2 =>
      have hpe : pendEntry (TaskNode.mk nm st sp cx rf fl ac (c :: cs2))
          (path ++ [nm]) = [] := by
        simp [pendEntry, is_pending_leaf, TaskNode.is_leaf,
          TaskNode.children]
      simp only [collectN, TaskNode.name, hpe, List.nil_append] at *
      simp only [collect_node, TaskNode.is_leaf, TaskNode.children,
        List.isEmpty_cons, Bool.false_eq_true, if_false, ite_false,
        TaskNode.name]
      exact ih (path ++ [nm]) tasks hle
  · intro path tasks _
    simp [collect_children, collectC]
  · intro c cs ihc ihcs path tasks hle
    have hle2 : tasks.length + ((collectN pendEntry c path).length
        + (collectC pendEntry cs path).length) ≤ N := by
      simpa [collectC] using hle
    have hA := ihc path tasks (by omega)
    by_cases hP : 0 < (collectN pendEntry c path).length ∧
        N ≤ tasks.length + (collectN pendEntry c path).length
    · obtain ⟨hP1, hP2⟩ := hP
      have hB : collectC pendEntry cs path = [] :=
        List.length_eq_zero.mp (by omega)
      have hCC : collectC pendEntry (c :: cs) path =
          collectN pendEntry c path := by
        simp [collectC, hB]
      rw [collect_children, hA, hCC, decide_eq_true ⟨hP1, hP2⟩]
    · rw [collect_children, hA, decide_eq_false hP]
      show collect_children N cs path (tasks ++ collectN pendEntry c path)
        = _
      have hC := ihcs path (tasks ++ collectN pendEntry c path)
        (by simp only [List.length_append]; omega)
      rw [hC]
      refine Prod.ext ?_ ?_
      · simp [collectC]
      · simp only [collectC, List.length_append]
        apply decide_eq_decide.mpr
        constructor
        · intro hx
          exact ⟨by omega, by omega⟩
        · intro hx
          refine ⟨?_, by omega⟩
          rcases Nat.eq_zero_or_pos (collectC pendEntry cs path).length
            with hz | hpos
          · exfalso
            omega
          · exact hpos

/-- Claim C2: for every budget at least the number of pending leaves,
find_n_pending returns exactly the full list of pending leaves with
their paths, in depth-first order (get_all_pending). -/
theorem C2_full_batch (T : Tree) (N : Nat)
    (h : (get_all_pending T).length ≤ N) :
    find_n_pending T N = get_all_pending T := by
  have hga := get_all_pending_eq_collect T
  rw [hga] at h
  have hcb := collect_bounded N T.children [T.name] []
    (by simpa using h)
  rw [find_n_pending, hcb, hga]
  simp

/-- Witness for C2 at the example tree. -/
theorem C2_full_batch_witness :
    find_n_pending egTree 3 = get_all_pending egTree :=
  C2_full_batch egTree 3 (by decide)

/-- update_children is the elementwise update of the child list. -/
theorem update_children_map (upd : TaskNode → TaskNode) :
    ∀ (cs : List TaskNode) (rem : List String),
      update_children upd cs rem =
        cs.map (fun c => update_node upd c rem) := by
  intro cs rem
  induction cs with
  | nil => simp [update_children]
  | cons c cs ih => simp [update_children, ih]

/-- Updating with the identity function changes nothing in a node. -/
theorem update_node_id : ∀ (rem : List String) (nd : TaskNode),
    update_node (fun n => n) nd rem = nd := by
  intro rem
  induction rem with
  | nil =>
    intro nd
    cases nd
    simp [update_node]
  | cons s rest ih =>
    intro nd
    cases nd with
    | mk nm st sp cx rf fl ac cs =>
      by_cases h : nm = s
      · cases rest with
        | nil => simp [update_node, TaskNode.name, h]
        | cons s2 r2 =>
          simp only [update_node, TaskNode.name, h, if_true, ite_true,
            update_children_map]
          have hmap : cs.map (fun c => update_node (fun n => n) c (s2 :: r2))
              = cs := by
            have h2 := List.map_congr_left
              (fun c (_ : c ∈ cs) => ih c)
            rw [h2]
            simp
          rw [hmap]
          exact TaskNode.withChildren_self _
      · simp [update_node, TaskNode.name, h]

/-- Updating with the identity function changes nothing in a child list. -/
theorem update_children_id (cs : List TaskNode) (rem : List String) :
    update_children (fun n => n) cs rem = cs := by
  rw [update_children_map]
  have h2 := List.map_congr_left
    (fun c (_ : c ∈ cs) => update_node_id rem c)
  rw [h2]
  simp

/-- The no-op update law: update_at_path with the identity returns a
structurally equal tree. -/
theorem update_at_path_id (T : Tree) (P : List String) :
    update_at_path T P (fun n => n) = T := by
  cases T with
  | mk nm cx cs =>
    simp [update_at_path, update_children_id]

/-- What a hit of resolveAux means: an element with the sought name at
the reported offset. -/
theorem resolveAux_spec : ∀ (cs : List TaskNode) (s : String)
    (k i : Nat) (c : TaskNode),
    resolveAux cs s k = some (i, c) →
    ∃ j, i = k + j ∧ cs.get? j = some c ∧ c.name = s := by
  intro cs
  induction cs with
  | nil => intro s k i c h; simp [resolveAux] at h
  | cons d cs ih =>
    intro s k i c h
    rw [resolveAux] at h
    by_cases hd : d.name = s
    · rw [if_pos hd] at h
      injection h with h2
      injection h2 with hi hc
      refine ⟨0, by omega, ?_, hc ▸ hd⟩
      rw [List.get?_cons_zero, hc]
    · rw [if_neg hd] at h
      obtain ⟨j, hj, hg, hn⟩ := ih s (k + 1) i c h
      exact ⟨j + 1, by omega, by simpa using hg, hn⟩

/-- In a list with pairwise distinct sibling names, positions with equal
names coincide. -/
theorem listUniq_name_inj : ∀ (cs : List TaskNode),
    listUniq cs = true →
    ∀ i j ci cj, cs.get? i = some ci → cs.get? j = some cj →
      ci.name = cj.name → i = j := by
  intro cs
  induction cs with
  | nil => intro _ i j ci cj hi; simp at hi
  | cons c cs ih =>
    intro hu i j ci cj hi hj hnm
    rw [listUniq, Bool.and_eq_true, Bool.and_eq_true] at hu
    obtain ⟨⟨hall, _⟩, hrest⟩ := hu
    cases i with
    | zero =>
      cases j with
      | zero => rfl
      | succ j =>
        exfalso
        simp only [List.get?_cons_zero, Option.some.injEq] at hi
        simp only [List.get?_cons_succ] at hj
        have hmem := List.get?_mem hj
        have := List.all_eq_true.mp hall cj hmem
        simp only [decide_eq_true_eq] at this
        exact this (hnm ▸ congrArg TaskNode.name hi.symm ▸ rfl)
    | succ i =>
      cases j with
      | zero =>
        exfalso
        simp only [List.get?_cons_zero, Option.some.injEq] at hj
        simp only [List.get?_cons_succ] at hi
        have hmem := List.get?_mem hi
        have := List.all_eq_true.mp hall ci hmem
        simp only [decide_eq_true_eq] at this
        exact this (hnm ▸ congrArg TaskNode.name hj.symm ▸ rfl)
      | succ j =>
        simp only [List.get?_cons_succ] at hi hj
        exact congrArg Nat.succ (ih hrest i j ci cj hi hj hnm)

/-- nodeUniq of a node is listUniq of its children. -/
theorem nodeUniq_eq (c : TaskNode) : nodeUniq c = listUniq c.children := by
  cases c
  rfl

/-- Unique sibling names propagate to every member's children. -/
theorem listUniq_child : ∀ (cs : List TaskNode),
    listUniq cs = true →
    ∀ i c, cs.get? i = some c → listUniq c.children = true := by
  intro cs
  induction cs with
  | nil => intro _ i c hi; simp at hi
  | cons d cs ih =>
    intro hu i c hi
    rw [listUniq, Bool.and_eq_true, Bool.and_eq_true] at hu
    obtain ⟨⟨_, hnode⟩, hrest⟩ := hu
    cases i with
    | zero =>
      simp only [List.get?_cons_zero, Option.some.injEq] at hi
      rw [← hi, ← nodeUniq_eq]
      exact hnode
    | succ i =>
      simp only [List.get?_cons_succ] at hi
      exact ih hrest i c hi

/-- Positional access through a node is positional access through its
child list, for non-empty positions. -/
theorem getN_cons (n : TaskNode) (i : Nat) (r : List Nat) :
    getN n (i :: r) = listGet n.children (i :: r) := by
  simp [getN, listGet]

/-- A resolved position is never empty. -/
theorem resolveChildren_pos_ne_nil :
    ∀ (cs : List TaskNode) (rest : List String) (pos : List Nat)
      (node : TaskNode),
      resolveChildren cs rest = some (pos, node) → pos ≠ [] := by
  intro cs rest pos node h
  cases rest with
  | nil => simp [resolveChildren] at h
  | cons s r2 =>
    rw [resolveChildren] at h
    cases hra : resolveAux cs s 0 with
    | none => rw [hra] at h; simp at h
    | some ic =>
      obtain ⟨i, c⟩ := ic
      rw [hra] at h
      cases r2 with
      | nil =>
        simp only [Option.some.injEq, Prod.mk.injEq] at h
        obtain ⟨h1, _⟩ := h
        rw [← h1]
        simp
      | cons s3 r3 =>
        simp only [Option.map_eq_some'] at h
        obtain ⟨pr, _, heq⟩ := h
        simp only [Prod.mk.injEq] at heq
        obtain ⟨h1, _⟩ := heq
        rw [← h1]
        simp

/-- Updating along a resolved path in a child list with unique sibling
names rewrites exactly the resolved position with the update function,
and leaves every position that neither extends nor is extended by the
resolved one untouched. -/
theorem update_resolved :
    ∀ (rest : List String) (cs : List TaskNode) (pos : List Nat)
      (node : TaskNode) (upd : TaskNode → TaskNode),
      listUniq cs = true →
      resolveChildren cs rest = some (pos, node) →
      listGet (update_children upd cs rest) pos = some (upd node)
      ∧ ∀ q : List Nat, ¬ pos <+: q → ¬ q <+: pos →
          listGet (update_children upd cs rest) q = listGet cs q := by
  intro rest
  induction rest with
  | nil =>
    intro cs pos node upd _ hres
    simp [resolveChildren] at hres
  | cons s rest ih =>
    intro cs pos node upd huniq hres
    rw [resolveChildren] at hres
    cases hra : resolveAux cs s 0 with
    | none => rw [hra] at hres; simp at hres
    | some ic =>
      obtain ⟨i, c⟩ := ic
      rw [hra] at hres
      obtain ⟨j, hj0, hget, hname⟩ := resolveAux_spec cs s 0 i c hra
      have hgeti : cs.get? i = some c := by
        have hji : j = i := by omega
        rwa [hji] at hget
      cases rest with
      | nil =>
        simp only [Option.some.injEq, Prod.mk.injEq] at hres
        obtain ⟨hpos, hnode⟩ := hres
        subst hnode
        subst hpos
        have hupd : update_node upd c [s] = upd c := by
          cases c with
          | mk nm st sp cx rf fl ac ncs =>
            simp only [TaskNode.name] at hname
            simp [update_node, TaskNode.name, hname]
        constructor
        · rw [update_children_map, listGet, List.get?_map, hgeti]
          simp [hupd, getN]
        · intro q hq1 hq2
          cases q with
          | nil => exact absurd (List.nil_prefix) hq2
          | cons jq q2 =>
            by_cases hji2 : jq = i
            · subst hji2
              exact absurd (List.cons_prefix_cons.mpr
                ⟨rfl, List.nil_prefix⟩) hq1
            · rw [update_children_map, listGet, listGet, List.get?_map]
              cases hjq : cs.get? jq with
              | none => rfl
              | some d =>
                have hdn : d.name ≠ s := by
                  intro hds
                  exact hji2 (listUniq_name_inj cs huniq jq i d c
                    hjq hgeti (hds.trans hname.symm))
                have hd : update_node upd d [s] = d := by
                  cases d with
                  | mk nm st sp cx rf fl ac dcs =>
                    simp only [TaskNode.name] at hdn
                    simp [update_node, TaskNode.name, hdn]
                simp [hd]
      | cons s2 rest2 =>
        simp only [Option.map_eq_some'] at hres
        obtain ⟨⟨pos2, node2⟩, hres2, heq⟩ := hres
        simp only [Prod.mk.injEq] at heq
        obtain ⟨hpos, hnode⟩ := heq
        subst hnode
        subst hpos
        have huc : listUniq c.children = true :=
          listUniq_child cs huniq i c hgeti
        obtain ⟨ihA, ihB⟩ := ih c.children pos2 node2 upd huc hres2
        have hpne : pos2 ≠ [] :=
          resolveChildren_pos_ne_nil c.children (s2 :: rest2) pos2 node2 hres2
        have hfuc : update_node upd c (s :: s2 :: rest2) =
            c.withChildren (update_children upd c.children (s2 :: rest2)) := by
          cases c with
          | mk nm st sp cx rf fl ac ccs =>
            simp only [TaskNode.name] at hname
            simp [update_node, TaskNode.name, TaskNode.children, hname]
        constructor
        · rw [update_children_map, listGet, List.get?_map, hgeti]
          simp only [Option.map_some']
          rw [hfuc]
          obtain ⟨jp, qp, hqp⟩ := List.exists_cons_of_ne_nil hpne
          rw [hqp, getN_cons, TaskNode.withChildren_children]
          exact hqp ▸ ihA
        · intro q hq1 hq2
          cases q with
          | nil => exact absurd (List.nil_prefix) hq2
          | cons jq q2 =>
            by_cases hji2 : jq = i
            · subst hji2
              have hq1a : ¬ (pos2 <+: q2) := fun hp =>
                hq1 (List.cons_prefix_cons.mpr ⟨rfl, hp⟩)
              have hq2a : ¬ (q2 <+: pos2) := fun hp =>
                hq2 (List.cons_prefix_cons.mpr ⟨rfl, hp⟩)
              cases q2 with
              | nil => exact absurd (List.nil_prefix) hq2a
              | cons jq2 q3 =>
                rw [update_children_map, listGet, listGet, List.get?_map,
                  hgeti]
                simp only [Option.map_some']
                rw [hfuc, getN_cons, getN_cons,
                  TaskNode.withChildren_children]
                exact ihB (jq2 :: q3) hq1a hq2a
            · rw [update_children_map, listGet, listGet, List.get?_map]
              cases hjq : cs.get? jq with
              | none => rfl
              | some d =>
                have hdn : d.name ≠ s := fun hds =>
                  hji2 (listUniq_name_inj cs huniq jq i d c hjq hgeti
                    (hds.trans hname.symm))
                have hd : update_node upd d (s :: s2 :: rest2) = d := by
                  cases d with
                  | mk nm st sp cx rf fl ac dcs =>
                    simp only [TaskNode.name] at hdn
                    simp [update_node, TaskNode.name, hdn]
                simp [hd]

/-- Claim C1: for a tree with unique sibling names and a path whose
first segment is the tree's name and which resolves to a node,
update_at_path replaces exactly the addressed node by fn(node): the
resolved position holds fn(node) and every position neither extending
nor extended by it is structurally unchanged.  Moreover, for every tree
and path, update_at_path with the identity returns a structurally equal
tree. -/
theorem C1_update_at_path_frame (T : Tree) (P : List String)
    (fn : TaskNode → TaskNode) (pos : List Nat) (node : TaskNode)
    (huniq : treeUniq T = true)
    (hres : resolvePath T P = some (pos, node)) :
    (getPos (update_at_path T P fn) pos = some (fn node)
     ∧ ∀ q : List Nat, ¬ pos <+: q → ¬ q <+: pos →
         getPos (update_at_path T P fn) q = getPos T q)
    ∧ ∀ (T2 : Tree) (P2 : List String),
        update_at_path T2 P2 (fun n => n) = T2 := by
  refine ⟨?_, fun T2 P2 => update_at_path_id T2 P2⟩
  rw [resolvePath.eq_def] at hres
  cases P with
  | nil => simp at hres
  | cons s rest =>
    dsimp only at hres
    by_cases hs : s = T.name
    · rw [if_pos hs] at hres
      have h := update_resolved rest T.children pos node fn huniq hres
      have hup : update_at_path T (s :: rest) fn =
          { T with children := update_children fn T.children rest } := by
        simp [update_at_path, hs]
      rw [hup]
      exact ⟨h.1, fun q h1 h2 => h.2 q h1 h2⟩
    · rw [if_neg hs] at hres
      simp at hres

/-- Witness for C1 at the example tree: updating A1 rewrites position
[0, 0], leaves the disjoint position [1] unchanged, and the identity
update returns the tree unchanged. -/
theorem C1_update_at_path_frame_witness :
    getPos (update_at_path egTree ["Root", "A", "A1"]
        (fun n => n.withStatus .done)) [0, 0] =
      some (egA1.withStatus .done)
    ∧ getPos (update_at_path egTree ["Root", "A", "A1"]
        (fun n => n.withStatus .done)) [1] = getPos egTree [1]
    ∧ update_at_path egTree ["Root", "B"] (fun n => n) = egTree := by
  have h := C1_update_at_path_frame egTree ["Root", "A", "A1"]
    (fun n => n.withStatus .done) [0, 0] egA1 (by decide) rfl
  exact ⟨h.1.1, h.1.2 [1] (by decide) (by decide), h.2 egTree ["Root", "B"]⟩

/-- allNodes is the direct depth-first listing of paths and node data. -/
theorem allNodes_eq_collect (t : Tree) :
    allNodes t = collectC dataEntry t.children [t.name] := by
  unfold allNodes fold_tree
  rw [fold_children_collect dataEntry
    (fun acc node path => acc ++ [(path, node.data)]) (fun acc nd p => rfl)]
  simp

/-- Updating along an empty remaining path changes nothing. -/
theorem update_children_nil (upd : TaskNode → TaskNode)
    (cs : List TaskNode) :
    update_children upd cs [] = cs := by
  rw [update_children_map]
  have h : ∀ c ∈ cs, update_node upd c [] = c := by
    intro c _
    cases c
    simp [update_node]
  rw [List.map_congr_left h]
  simp

/-- Every entry of the depth-first listing below a child list sits
strictly below the current path. -/
theorem collectC_data_extends :
    ∀ cs : List TaskNode, ∀ path (pd : List String × NodeData),
      pd ∈ collectC dataEntry cs path →
      ∃ t, pd.1 = path ++ t ∧ t ≠ [] := by
  apply listInd
    (P := fun c => ∀ path (pd : List String × NodeData),
      pd ∈ collectN dataEntry c path →
      ∃ t, pd.1 = path ++ c.name :: t)
    (Q := fun cs => ∀ path (pd : List String × NodeData),
      pd ∈ collectC dataEntry cs path →
      ∃ t, pd.1 = path ++ t ∧ t ≠ [])
  · intro nm st sp cx rf fl ac cs ih path pd hmem
    simp only [collectN, dataEntry, TaskNode.name, List.singleton_append,
      List.mem_cons] at hmem
    rcases hmem with h | h
    · refine ⟨[], ?_⟩
      rw [h]
      simp [TaskNode.name]
    · obtain ⟨t, ht, _⟩ := ih (path ++ [nm]) pd h
      refine ⟨t, ?_⟩
      rw [ht]
      simp [TaskNode.name]
  · intro path pd h
    simp [collectC] at h
  · intro c cs ihc ihcs path pd hmem
    rw [collectC] at hmem
    rcases List.mem_append.mp hmem with h | h
    · obtain ⟨t, ht⟩ := ihc path pd h
      exact ⟨c.name :: t, ht, by simp⟩
    · exact ihcs path pd h

/-- Every entry of the depth-first listing below a node sits at or below
the node's own path. -/
theorem collectN_data_extends (c : TaskNode) (path : List String)
    (pd : List String × NodeData) (h : pd ∈ collectN dataEntry c path) :
    ∃ t, pd.1 = path ++ c.name :: t := by
  cases c with
  | mk nm st sp cx rf fl ac ccs =>
    simp only [collectN, dataEntry, TaskNode.name, List.singleton_append,
      List.mem_cons] at h
    rcases h with h | h
    · refine ⟨[], ?_⟩
      rw [h]
      simp [TaskNode.name]
    · obtain ⟨t, ht, _⟩ := collectC_data_extends ccs (path ++ [nm]) pd h
      refine ⟨t, ?_⟩
      rw [ht]
      simp [TaskNode.name]

/-- Marking the node addressed by a name path done rewrites, in the
depth-first listing, exactly the entries whose full path equals the
addressed path (their status set to done) and no other entry. -/
theorem update_done_allNodes :
    ∀ (rem : List String) (cs : List TaskNode) (path : List String),
      collectC dataEntry
        (update_children (fun n => n.withStatus .done) cs rem) path =
      (collectC dataEntry cs path).map
        (fun pd =>
          if pd.1 = path ++ rem then (pd.1, dataDone pd.2) else pd) := by
  intro rem
  induction rem with
  | nil =>
    intro cs path
    rw [update_children_nil]
    have h : ∀ pd ∈ collectC dataEntry cs path,
        (if pd.1 = path ++ ([] : List String) then (pd.1, dataDone pd.2)
         else pd) = pd := by
      intro pd hmem
      obtain ⟨t, ht, htne⟩ := collectC_data_extends cs path pd hmem
      rw [if_neg]
      intro hcontra
      rw [List.append_nil] at hcontra
      apply htne
      have h2 : path ++ t = path ++ [] := by
        rw [← ht, hcontra, List.append_nil]
      exact List.append_cancel_left h2
    rw [List.map_congr_left h]
    simp
  | cons s rest ihr =>
    intro cs path
    induction cs with
    | nil => simp [update_children, collectC]
    | cons c cs2 ihl =>
      simp only [update_children, collectC, List.map_append]
      rw [ihl]
      congr 1
      by_cases hn : c.name = s
      · cases rest with
        | nil =>
          cases c with
          | mk nm st sp cx rf fl ac ccs =>
            simp only [TaskNode.name] at hn
            have hcu : update_node (fun n => n.withStatus .done)
                (TaskNode.mk nm st sp cx rf fl ac ccs) [s] =
                TaskNode.mk nm .done sp cx rf fl ac ccs := by
              simp [update_node, TaskNode.name, hn, TaskNode.withStatus]
            rw [hcu]
            simp only [collectN, dataEntry, TaskNode.name,
              List.singleton_append, List.map_cons]
            congr 1
            · rw [if_pos (by rw [hn])]
              simp [TaskNode.data, dataDone]
            · symm
              have hid : ∀ pd ∈ collectC dataEntry ccs (path ++ [nm]),
                  (if pd.1 = path ++ [s] then (pd.1, dataDone pd.2)
                   else pd) = pd := by
                intro pd hmem2
                obtain ⟨t, ht, htne⟩ :=
                  collectC_data_extends ccs (path ++ [nm]) pd hmem2
                rw [if_neg]
                intro hcontra
                rw [ht] at hcontra
                have hlen := congrArg List.length hcontra
                simp only [List.length_append, List.length_cons,
                  List.length_nil] at hlen
                have : t = [] := List.length_eq_zero.mp (by omega)
                exact htne this
              rw [List.map_congr_left hid]
              simp
        | cons s2 r2 =>
          cases c with
          | mk nm st sp cx rf fl ac ccs =>
            simp only [TaskNode.name] at hn
            have hcu : update_node (fun n => n.withStatus .done)
                (TaskNode.mk nm st sp cx rf fl ac ccs) (s :: s2 :: r2) =
                TaskNode.mk nm st sp cx rf fl ac
                  (update_children (fun n => n.withStatus .done) ccs
                    (s2 :: r2)) := by
              simp [update_node, TaskNode.name, hn, TaskNode.withChildren]
            rw [hcu]
            simp only [collectN, dataEntry, TaskNode.name,
              List.singleton_append, List.map_cons]
            congr 1
            · have hne : ¬ ((path ++ [nm] : List String) =
                  path ++ s :: s2 :: r2) := by
                intro hcontra
                have hlen := congrArg List.length hcontra
                simp only [List.length_append, List.length_cons,
                  List.length_nil] at hlen
                omega
              rw [if_neg hne]
              simp [TaskNode.data]
            · rw [ihr ccs (path ++ [nm])]
              have hpath : (path ++ [nm]) ++ (s2 :: r2) =
                  path ++ s :: s2 :: r2 := by
                rw [hn]
                simp
              rw [hpath]
      · have hcu : update_node (fun n => n.withStatus .done) c (s :: rest)
            = c := by
          cases c with
          | mk nm st sp cx rf fl ac ccs =>
            simp only [TaskNode.name] at hn
            simp [update_node, TaskNode.name, hn]
        rw [hcu]
        symm
        have hid : ∀ pd ∈ collectN dataEntry c path,
            (if pd.1 = path ++ s :: rest then (pd.1, dataDone pd.2)
             else pd) = pd := by
          intro pd hmem2
          obtain ⟨t, ht⟩ := collectN_data_extends c path pd hmem2
          rw [if_neg]
          intro hcontra
          rw [ht] at hcontra
          have h2 := List.append_cancel_left hcontra
          injection h2 with h3 _
          exact hn h3
        rw [List.map_congr_left hid]
        simp

/-- A hit of the searching traversal satisfies the predicate at its
recorded path, which strictly extends the starting path. -/
theorem search_result_spec :
    ∀ cs : List TaskNode, ∀ (path0 : List String)
      (pred : TaskNode → List String → Bool) (r : TaskWithPath),
      search_children pred cs path0 = some r →
      pred r.task r.path = true ∧ ∃ t, r.path = path0 ++ t ∧ t ≠ [] := by
  apply listInd
    (P := fun c => ∀ (path0 : List String)
      (pred : TaskNode → List String → Bool) (r : TaskWithPath),
      search_node pred c path0 = some r →
      pred r.task r.path = true ∧ ∃ t, r.path = path0 ++ c.name :: t)
    (Q := fun cs => ∀ (path0 : List String)
      (pred : TaskNode → List String → Bool) (r : TaskWithPath),
      search_children pred cs path0 = some r →
      pred r.task r.path = true ∧ ∃ t, r.path = path0 ++ t ∧ t ≠ [])
  · intro nm st sp cx rf fl ac cs ih path0 pred r h
    rw [search_node] at h
    split at h
    · injection h with h2
      subst h2
      refine ⟨by assumption, [], ?_⟩
      simp [TaskNode.name]
    · obtain ⟨hpred, t, ht1, _⟩ := ih _ pred r h
      refine ⟨hpred, t, ?_⟩
      rw [ht1]
      simp [TaskNode.name]
  · intro path0 pred r h
    simp [search_children] at h
  · intro c cs ihc ihcs path0 pred r h
    rw [search_children] at h
    cases hsn : search_node pred c path0 with
    | some r2 =>
      rw [hsn] at h
      injection h with h2
      subst h2
      obtain ⟨hpred, t, ht⟩ := ihc path0 pred r2 hsn
      exact ⟨hpred, c.name :: t, ht, by simp⟩
    | none =>
      rw [hsn] at h
      exact ihcs path0 pred r h

/-- A found path starts with the tree's name: find_by_path resolves the
query path to a node whose accumulated path is the query itself. -/
theorem find_by_path_shape (T : Tree) (P : List String) (task : TaskNode)
    (h : find_by_path T P = some task) :
    ∃ t, P = T.name :: t := by
  rw [find_by_path] at h
  rw [Option.map_eq_some'] at h
  obtain ⟨r, hr, _⟩ := h
  rw [find_first] at hr
  obtain ⟨hpred, t, ht, htne⟩ :=
    search_result_spec T.children [T.name] (path_matches P) r hr
  simp only [path_matches, decide_eq_true_eq] at hpred
  refine ⟨t, ?_⟩
  rw [← hpred, ht]
  rfl

/-- Claim C4: complete_task returns an error whenever the path does not
resolve or the addressed node is already done, blocked, or a non-leaf
grouping node (the input tree is untouched: the function is pure and the
error branch carries no tree); for a pending or in-progress leaf it
returns Ok with the tree updated at the path, and in the depth-first
listing of (path, node data) pairs exactly the entries at the addressed
path have their status set to done, every other entry being unchanged. -/
theorem C4_complete_task (T : Tree) (P : List String) (pid : String) :
    (find_by_path T P = none → ∃ e, complete_task T P pid = .Err e)
    ∧ ∀ task : TaskNode, find_by_path T P = some task →
        ((task.status = .done ∨ task.status = .blocked) →
          ∃ e, complete_task T P pid = .Err e)
        ∧ (task.is_leaf = false → ∃ e, complete_task T P pid = .Err e)
        ∧ (task.is_leaf = true →
            (task.status = .pending ∨ task.status = .in_progress) →
            complete_task T P pid =
              .Ok (update_at_path T P (fun n => n.withStatus .done),
                   ⟨pid, P, task.name⟩)
            ∧ allNodes (update_at_path T P (fun n => n.withStatus .done)) =
                (allNodes T).map (fun pd =>
                  if pd.1 = P then (pd.1, dataDone pd.2) else pd)) := by
  constructor
  · intro h
    refine ⟨"Task not found at path: " ++ String.intercalate "/" P, ?_⟩
    simp [complete_task, h]
  · intro task hfind
    refine ⟨?_, ?_, ?_⟩
    · intro hst
      have hcond : task.status ≠ TaskStatus.in_progress ∧
          task.status ≠ TaskStatus.pending := by
        rcases hst with h | h <;> rw [h] <;> exact ⟨by simp, by simp⟩
      refine ⟨"Task '" ++ task.name ++ "' cannot be completed " ++
        "(current status: " ++ task.status.value ++ ")", ?_⟩
      simp only [complete_task, hfind]
      rw [if_pos hcond]
    · intro hleaf
      by_cases hcond : task.status ≠ TaskStatus.in_progress ∧
          task.status ≠ TaskStatus.pending
      · refine ⟨"Task '" ++ task.name ++ "' cannot be completed " ++
          "(current status: " ++ task.status.value ++ ")", ?_⟩
        simp only [complete_task, hfind]
        rw [if_pos hcond]
      · refine ⟨"Task '" ++ task.name ++
          "' is a grouping node, not an executable task", ?_⟩
        simp only [complete_task, hfind]
        rw [if_neg hcond, if_pos (by simp [hleaf])]
    · intro hleaf hst
      have hcond : ¬ (task.status ≠ TaskStatus.in_progress ∧
          task.status ≠ TaskStatus.pending) := by
        rcases hst with h | h <;> simp [h]
      constructor
      · simp only [complete_task, hfind]
        rw [if_neg hcond, if_neg (by simp [hleaf])]
      · obtain ⟨t, hPt⟩ := find_by_path_shape T P task hfind
        have hupd : update_at_path T P (fun n => n.withStatus .done) = { T with children := update_children (fun n => n.withStatus .done) T.children t } := by
          rw [hPt]
          simp [update_at_path]
        rw [hupd, allNodes_eq_collect, allNodes_eq_collect]
        dsimp only
        rw [update_done_allNodes t T.children [T.name]]
        have hcondeq : ([T.name] : List String) ++ t = P := by
          rw [hPt]
          rfl
        rw [hcondeq]

/-- Witness for C4 at the example tree: completing the pending leaf B
yields Ok with exactly B's entry set to done. -/
theorem C4_complete_task_witness :
    complete_task egTree ["Root", "B"] "" =
      .Ok (update_at_path egTree ["Root", "B"]
            (fun n => n.withStatus .done),
           ⟨"", ["Root", "B"], "B"⟩)
    ∧ allNodes (update_at_path egTree ["Root", "B"]
        (fun n => n.withStatus .done)) =
      (allNodes egTree).map (fun pd =>
        if pd.1 = ["Root", "B"] then (pd.1, dataDone pd.2) else pd) := by
  have h := (C4_complete_task egTree ["Root", "B"] "").2 egB rfl
  exact h.2.2 rfl (Or.inl rfl)

end Ralph
